import Mathlib

/-!
# Verification of the retrieval-and-memory core of `applied-ai-service`

Shallow embedding of the repository's core logic:

* `app/db.py` — SQLite-backed stores (`save_message`, `load_messages`,
  `create_document`, `add_chunk`, `search_chunks`, `get_counts`) and the
  pure scoring primitive `_cosine_similarity`;
* `app/main.py` — the `ingest` and `chat` request handlers.

The SQLite tables are modelled as in-memory lists of rows inside `DBState`,
with `AUTOINCREMENT` identifiers provided by explicit counters.  Python
floats are modelled as real numbers, Python strings as `List Char` (so that
slicing in the chunker is `take`/`drop`), and the remote OpenAI calls as
function parameters returning `Except BackendError _` (an exception raised
by a backend call aborts the handler before any subsequent store write).
`scored.sort(key=..., reverse=True)` is a stable descending sort, modelled
by the stable insertion sort `sortDescBy`.
-/

namespace AppliedAI

/-- A row of the `messages` table: one persisted conversation turn. -/
structure Message where
  id : Nat
  conversation_id : String
  role : String
  content : List Char
deriving DecidableEq

/-- A row of the `documents` table. -/
structure Document where
  id : Nat
  name : String
deriving DecidableEq

/-- A row of the `chunks` table. -/
structure ChunkRow where
  document_id : Nat
  content : List Char
  embedding : List ℝ

/-- The durable store (the three SQLite tables), with `AUTOINCREMENT`
counters made explicit. -/
structure DBState where
  messages : List Message
  next_message_id : Nat
  documents : List Document
  next_document_id : Nat
  chunks : List ChunkRow

/-- `db.save_message`: INSERT a new row into `messages`, taking the next
auto-increment identifier. -/
def save_message (db : DBState) (conversation_id role : String)
    (content : List Char) : DBState :=
  { db with
    messages := db.messages ++ [⟨db.next_message_id, conversation_id, role, content⟩]
    next_message_id := db.next_message_id + 1 }

/-- Stable insertion step for a descending sort by `key`: the new element is
placed before the first existing element whose key is ≤ its own, hence after
every earlier-scanned element with a strictly greater key and before every
later element with an equal key. -/
def insertDescBy {α β : Type*} [LinearOrder β] (key : α → β) (x : α) :
    List α → List α
  | [] => [x]
  | y :: ys => if key y ≤ key x then x :: y :: ys else y :: insertDescBy key x ys

/-- Stable descending sort by `key` (the model of Python's stable
`list.sort(key=..., reverse=True)` and of SQL `ORDER BY ... DESC`). -/
def sortDescBy {α β : Type*} [LinearOrder β] (key : α → β) (l : List α) : List α :=
  l.foldr (insertDescBy key) []

/-- The rows produced by the query in `db.load_messages` after the in-place
reversal: SELECT WHERE conversation_id matches, ORDER BY id DESC, LIMIT
`limit`, then reverse. -/
def load_rows (db : DBState) (conversation_id : String) (limit : Nat) :
    List Message :=
  ((sortDescBy (fun m => m.id)
      (db.messages.filter (fun m => m.conversation_id = conversation_id))).take
    limit).reverse

/-- `db.load_messages`: the reversed query rows projected to their
(role, content) pairs. -/
def load_messages (db : DBState) (conversation_id : String) (limit : Nat) :
    List (String × List Char) :=
  (load_rows db conversation_id limit).map (fun m => (m.role, m.content))

/-- `db.create_document`: INSERT a row into `documents` and return its
auto-increment identifier. -/
def create_document (db : DBState) (name : String) : Nat × DBState :=
  (db.next_document_id,
   { db with
     documents := db.documents ++ [⟨db.next_document_id, name⟩]
     next_document_id := db.next_document_id + 1 })

/-- `db.add_chunk`: INSERT a row into `chunks`. -/
def add_chunk (db : DBState) (document_id : Nat) (content : List Char)
    (embedding : List ℝ) : DBState :=
  { db with chunks := db.chunks ++ [⟨document_id, content, embedding⟩] }

/-- `db.get_counts`: the (messages, documents, chunks) row counts. -/
def get_counts (db : DBState) : Nat × Nat × Nat :=
  (db.messages.length, db.documents.length, db.chunks.length)

/-- `db._cosine_similarity`: one pass over `zip(a, b)` accumulating the dot
product and both squared norms, then `dot / denom if denom else 0.0`. -/
noncomputable def _cosine_similarity (a b : List ℝ) : ℝ :=
  let dot := ((a.zip b).map (fun p => p.1 * p.2)).sum
  let na := ((a.zip b).map (fun p => p.1 * p.1)).sum
  let nb := ((a.zip b).map (fun p => p.2 * p.2)).sum
  let denom := Real.sqrt na * Real.sqrt nb
  if denom = 0 then 0 else dot / denom

/-- The dot product over the zipped common prefix (the quantity the loop in
`_cosine_similarity` accumulates in `dot`). -/
noncomputable def dotList (a b : List ℝ) : ℝ :=
  ((a.zip b).map (fun p => p.1 * p.2)).sum

/-- The squared Euclidean magnitude of a whole vector, as in the spec's
‖·‖² (independent of any zip truncation). -/
noncomputable def normSqList (v : List ℝ) : ℝ :=
  (v.map (fun x => x * x)).sum

/-- The scored list built by `db.search_chunks`: every stored chunk paired
with its similarity score against the query embedding. -/
noncomputable def scoredOf (query_embedding : List ℝ) (chunks : List ChunkRow) :
    List (ℝ × List Char) :=
  chunks.map (fun c => (_cosine_similarity query_embedding c.embedding, c.content))

/-- `db.search_chunks`: score every stored chunk, sort by score descending
(stable), truncate to `top_k`, and return the contents. -/
noncomputable def search_chunks (query_embedding : List ℝ)
    (chunks : List ChunkRow) (top_k : Nat) : List (List Char) :=
  ((sortDescBy Prod.fst (scoredOf query_embedding chunks)).take top_k).map Prod.snd

/-- Python's `str.strip()`: remove leading and trailing whitespace. -/
def pyStrip (s : List Char) : List Char :=
  ((s.dropWhile Char.isWhitespace).reverse.dropWhile Char.isWhitespace).reverse

/-- The chunk size fixed in `main.ingest`. -/
def chunk_size : Nat := 800

/-- The chunker of `main.ingest`:
`[text[i : i + max_len] for i in range(0, len(text), max_len)]`. -/
def split (text : List Char) (max_len : Nat) : List (List Char) :=
  (List.range' 0 ((text.length + max_len - 1) / max_len) max_len).map
    (fun i => (text.drop i).take max_len)

/-- The stable classifications of upstream (embedding / generation) failures
surfaced by the exception handlers in `main.py`. -/
inductive BackendError where
  | embeddingUnavailable
  | unauthorized
  | rateLimited
  | badUpstreamRequest
  | upstreamUnavailable
deriving DecidableEq

/-- The `for chunk in chunks` loop of `main.ingest`: embed each chunk in
order and store it immediately; an embedding failure aborts the loop,
leaving every chunk stored so far in place. -/
def ingestChunks (embed : List Char → Except BackendError (List ℝ))
    (document_id : Nat) (db : DBState) :
    List (List Char) → Except BackendError Unit × DBState
  | [] => (.ok (), db)
  | chunk :: rest =>
    match embed chunk with
    | .error e => (.error e, db)
    | .ok emb => ingestChunks embed document_id (add_chunk db document_id chunk emb) rest

/-- `main.ingest`: create the document record, strip and split the text,
then embed and store each chunk in order.  Returns (document_id,
chunks_added) on success. -/
def ingest (embed : List Char → Except BackendError (List ℝ))
    (db : DBState) (name : String) (text : List Char) :
    Except BackendError (Nat × Nat) × DBState :=
  let r := create_document db name
  let chunks := split (pyStrip text) chunk_size
  match ingestChunks embed r.1 r.2 chunks with
  | (.ok _, db2) => (.ok (r.1, chunks.length), db2)
  | (.error e, db2) => (.error e, db2)

/-- An entry of the message sequence sent to the generation backend. -/
structure Msg where
  role : String
  content : List Char
deriving DecidableEq

/-- The separator joining retrieved fragments in `main.chat`. -/
def contextSeparator : List Char := "\n\n---\n\n".toList

/-- The fixed prefix of the retrieved-context system message in `main.chat`. -/
def contextPrefix : List Char :=
  "Use the following retrieved context when helpful:\n\n".toList

/-- The content of the retrieved-context system message:
`"Use the following retrieved context when helpful:\n\n" + "\n\n---\n\n".join(retrieved)`. -/
def contextBlock (retrieved : List (List Char)) : List Char :=
  contextPrefix ++ List.intercalate contextSeparator retrieved

/-- Prompt assembly in `main.chat`: history mapped to role-tagged messages,
the new user message appended last, and — when retrieval returned at least
one fragment — the system context message inserted at position 0. -/
def assemble (history : List (String × List Char)) (message : List Char)
    (retrieved : List (List Char)) : List Msg :=
  let msgs := (history.map (fun rc => Msg.mk rc.1 rc.2)) ++ [Msg.mk "user" message]
  match retrieved with
  | [] => msgs
  | _ :: _ => Msg.mk "system" (contextBlock retrieved) :: msgs

/-- The exact message sequence `main.chat` sends to the generation backend,
given the embedding of the user message: assembled from the 20 most recent
turns of the conversation and the top-4 retrieved chunks. -/
noncomputable def assembledFor (db : DBState) (conversation_id : String)
    (message : List Char) (query_emb : List ℝ) : List Msg :=
  assemble (load_messages db conversation_id 20) message
    (search_chunks query_emb db.chunks 4)

/-- `main.chat`: load history, embed the query (an embedding failure aborts
the request with its classification), retrieve and assemble, generate (a
generation failure likewise aborts), default a missing generation payload to
the empty string, then persist the user turn followed by the assistant turn
and return the assistant text. -/
noncomputable def chat (embed : List Char → Except BackendError (List ℝ))
    (generate : List Msg → Except BackendError (Option (List Char)))
    (db : DBState) (conversation_id : String) (message : List Char) :
    Except BackendError (List Char) × DBState :=
  match embed message with
  | .error e => (.error e, db)
  | .ok query_emb =>
    match generate (assembledFor db conversation_id message query_emb) with
    | .error e => (.error e, db)
    | .ok content =>
      let assistant_text := content.getD []
      let db1 := save_message db conversation_id "user" message
      let db2 := save_message db1 conversation_id "assistant" assistant_text
      (.ok assistant_text, db2)

/-- The empty store (freshly initialised database). -/
def emptyDB : DBState := ⟨[], 0, [], 0, []⟩

/-! ## Properties of the stable descending sort -/

section SortLemmas

variable {α β : Type*} [LinearOrder β] (key : α → β)

theorem insertDescBy_perm (x : α) (l : List α) :
    List.Perm (insertDescBy key x l) (x :: l) := by
  induction l with
  | nil => exact List.Perm.refl _
  | cons y ys ih =>
    by_cases h : key y ≤ key x
    · simp [insertDescBy, h]
    · simp only [insertDescBy, if_neg h]
      exact (ih.cons y).trans (List.Perm.swap x y ys)

theorem sortDescBy_perm (l : List α) : List.Perm (sortDescBy key l) l := by
  induction l with
  | nil => exact List.Perm.refl _
  | cons a l ih =>
    exact (insertDescBy_perm key a (sortDescBy key l)).trans (ih.cons a)

theorem mem_insertDescBy {z x : α} {l : List α} :
    z ∈ insertDescBy key x l ↔ z = x ∨ z ∈ l := by
  rw [(insertDescBy_perm key x l).mem_iff, List.mem_cons]

theorem sortedDesc_insertDescBy (x : α) {l : List α}
    (h : l.Pairwise (fun u v => key v ≤ key u)) :
    (insertDescBy key x l).Pairwise (fun u v => key v ≤ key u) := by
  induction l with
  | nil => simp [insertDescBy]
  | cons y ys ih =>
    rcases List.pairwise_cons.1 h with ⟨hy, hys⟩
    by_cases hxy : key y ≤ key x
    · simp only [insertDescBy, if_pos hxy]
      refine List.pairwise_cons.2 ⟨?_, h⟩
      intro z hz
      rcases List.mem_cons.1 hz with rfl | hz
      · exact hxy
      · exact (hy z hz).trans hxy
    · simp only [insertDescBy, if_neg hxy]
      refine List.pairwise_cons.2 ⟨?_, ih hys⟩
      intro z hz
      rcases (mem_insertDescBy key).1 hz with rfl | hz
      · exact (lt_of_not_le hxy).le
      · exact hy z hz

theorem sortedDesc_sortDescBy (l : List α) :
    (sortDescBy key l).Pairwise (fun u v => key v ≤ key u) := by
  induction l with
  | nil => simp [sortDescBy]
  | cons a l ih => exact sortedDesc_insertDescBy key a ih

theorem filter_insertDescBy (x : α) (l : List α) (v : β) :
    (insertDescBy key x l).filter (fun z => key z = v) =
      if key x = v then x :: l.filter (fun z => key z = v)
      else l.filter (fun z => key z = v) := by
  induction l with
  | nil =>
    by_cases h : key x = v <;> simp [insertDescBy, List.filter, h]
  | cons y ys ih =>
    simp only [insertDescBy]
    by_cases hxy : key y ≤ key x
    · rw [if_pos hxy]
      by_cases h1 : key x = v <;> simp [List.filter_cons, h1]
    · rw [if_neg hxy]
      have hlt : key x < key y := lt_of_not_le hxy
      by_cases h1 : key x = v
      · have hy1 : ¬ key y = v := by
          intro hy1
          exact absurd (h1.trans hy1.symm) (ne_of_lt hlt)
        rw [List.filter_cons, List.filter_cons, ih, if_pos h1]
        simp [h1, hy1]
      · by_cases hy1 : key y = v <;>
          · rw [List.filter_cons, List.filter_cons, ih, if_neg h1]
            simp [h1, hy1]

theorem filter_sortDescBy (l : List α) (v : β) :
    (sortDescBy key l).filter (fun z => key z = v) =
      l.filter (fun z => key z = v) := by
  induction l with
  | nil => rfl
  | cons a l ih =>
    show (insertDescBy key a (sortDescBy key l)).filter _ = _
    rw [filter_insertDescBy]
    by_cases h : key a = v <;> simp [List.filter_cons, h, ih]

theorem insertDescBy_of_forall_lt (x : α) {l : List α}
    (h : ∀ y ∈ l, key x < key y) :
    insertDescBy key x l = l ++ [x] := by
  induction l with
  | nil => rfl
  | cons y ys ih =>
    have : ¬ key y ≤ key x := not_le.2 (h y (List.mem_cons_self y ys))
    simp only [insertDescBy, if_neg this, List.cons_append]
    rw [ih (fun z hz => h z (List.mem_cons_of_mem y hz))]

theorem sortDescBy_of_pairwise_lt {l : List α}
    (h : l.Pairwise (fun u v => key u < key v)) :
    sortDescBy key l = l.reverse := by
  induction l with
  | nil => rfl
  | cons a l ih =>
    rcases List.pairwise_cons.1 h with ⟨ha, hl⟩
    show insertDescBy key a (sortDescBy key l) = _
    rw [ih hl, insertDescBy_of_forall_lt key a
      (fun y hy => ha y (List.mem_reverse.1 hy)), List.reverse_cons]

end SortLemmas

/-! ## Properties of the chunker -/

theorem split_nil (L : Nat) : split [] L = [] := by
  have h : (L - 1) / L = 0 := by
    cases L with
    | zero => decide
    | succ n => exact Nat.div_eq_of_lt (by omega)
  simp [split, h]

theorem ceilDiv_succ {n L : Nat} (hL : 0 < L) (hn : 0 < n) :
    (n + L - 1) / L = (n - L + L - 1) / L + 1 := by
  rcases le_or_lt n L with h | h
  · have h1 : n - L = 0 := by omega
    have h2 : (0 + L - 1) / L = 0 := Nat.div_eq_of_lt (by omega)
    have h3 : (n + L - 1) / L = 1 :=
      Nat.div_eq_of_lt_le (by omega) (by omega)
    rw [h1, h2, h3]
  · have h1 : n - L + L - 1 = n - 1 := by omega
    have h2 : n - 1 + L = n + L - 1 := by omega
    rw [h1, ← h2, Nat.add_div_right _ hL]

theorem split_cons {t : List Char} {L : Nat} (hL : 0 < L) (ht : t ≠ []) :
    split t L = t.take L :: split (t.drop L) L := by
  have hn : 0 < t.length := List.length_pos.2 ht
  have hlen : (t.drop L).length = t.length - L := List.length_drop L t
  show (List.range' 0 ((t.length + L - 1) / L) L).map _ = _
  rw [ceilDiv_succ hL hn, List.range'_succ, List.map_cons, Nat.zero_add]
  congr 1
  show _ = (List.range' 0 (((t.drop L).length + L - 1) / L) L).map _
  rw [hlen]
  have hrange : List.range' L ((t.length - L + L - 1) / L) L =
      (List.range' 0 ((t.length - L + L - 1) / L) L).map (L + ·) := by
    rw [List.map_add_range', Nat.add_zero]
  rw [hrange, List.map_map]
  apply List.map_congr_left
  intro i _
  show (t.drop (L + i)).take L = ((t.drop L).drop i).take L
  rw [List.drop_drop]

theorem flatten_split {L : Nat} (hL : 0 < L) :
    ∀ (n : Nat) (t : List Char), t.length ≤ n → (split t L).flatten = t := by
  intro n
  induction n with
  | zero =>
    intro t h
    have ht : t = [] := List.eq_nil_of_length_eq_zero (by omega)
    rw [ht, split_nil]
    rfl
  | succ n ih =>
    intro t h
    rcases eq_or_ne t [] with rfl | ht
    · rw [split_nil]
      rfl
    · have hn : 0 < t.length := List.length_pos.2 ht
      rw [split_cons hL ht, List.flatten_cons,
        ih (t.drop L) (by rw [List.length_drop]; omega)]
      exact List.take_append_drop L t

theorem mem_split {L : Nat} (hL : 0 < L) :
    ∀ (n : Nat) (t : List Char), t.length ≤ n →
      ∀ f ∈ split t L, 0 < f.length ∧ f.length ≤ L := by
  intro n
  induction n with
  | zero =>
    intro t h f hf
    have ht : t = [] := List.eq_nil_of_length_eq_zero (by omega)
    rw [ht, split_nil] at hf
    exact absurd hf (List.not_mem_nil f)
  | succ n ih =>
    intro t h f hf
    have hn : 0 < t.length := by
      rcases Nat.eq_zero_or_pos t.length with h0 | h0
      · rw [List.eq_nil_of_length_eq_zero h0, split_nil] at hf
        exact absurd hf (List.not_mem_nil f)
      · exact h0
    have ht : t ≠ [] := List.length_pos.1 hn
    rw [split_cons hL ht, List.mem_cons] at hf
    rcases hf with rfl | hf
    · rw [List.length_take]
      omega
    · exact ih (t.drop L) (by rw [List.length_drop]; omega) f hf

/-! ## Claims -/

/-- C1: Chunker round-trip: for every input text T and every max_len L > 0,
splitting the trimmed T into fragments and concatenating them in order
reproduces the trimmed T exactly; every fragment has positive length at most
L; and a text that is empty after trimming yields an empty fragment
sequence. -/
theorem C1_chunker_round_trip (T : List Char) (L : Nat) (hL : 0 < L) :
    (split (pyStrip T) L).flatten = pyStrip T
    ∧ (∀ f ∈ split (pyStrip T) L, 0 < f.length ∧ f.length ≤ L)
    ∧ (pyStrip T = [] → split (pyStrip T) L = []) :=
  ⟨flatten_split hL (pyStrip T).length (pyStrip T) le_rfl,
   mem_split hL (pyStrip T).length (pyStrip T) le_rfl,
   fun h => by rw [h, split_nil]⟩

theorem C1_chunker_round_trip_witness :
    (split (pyStrip ['a', 'b', 'c']) 2).flatten = pyStrip ['a', 'b', 'c']
    ∧ split (pyStrip [' ']) 800 = [] :=
  ⟨(C1_chunker_round_trip ['a', 'b', 'c'] 2 (by decide)).1,
   (C1_chunker_round_trip [' '] 800 (by decide)).2.2 (by decide)⟩

/-- C5: Conversation memory ordering: under the store invariant that message
identifiers strictly increase in insertion order, the rows read by
`load_messages` are the at-most-`limit` most recent turns of the
conversation (the final segment of the chronologically filtered log), in
strictly increasing identifier order; when fewer than `limit` matching turns
exist all of them are returned; and a conversation with no turns yields the
empty sequence rather than an error. -/
theorem C5_conversation_memory_ordering (db : DBState) (cid : String)
    (limit : Nat) (hsort : db.messages.Pairwise (fun u v => u.id < v.id)) :
    (load_rows db cid limit).Pairwise (fun u v => u.id < v.id)
    ∧ load_rows db cid limit =
        (db.messages.filter (fun m => m.conversation_id = cid)).drop
          ((db.messages.filter (fun m => m.conversation_id = cid)).length - limit)
    ∧ ((db.messages.filter (fun m => m.conversation_id = cid)).length ≤ limit →
        load_rows db cid limit =
          db.messages.filter (fun m => m.conversation_id = cid))
    ∧ (db.messages.filter (fun m => m.conversation_id = cid) = [] →
        load_messages db cid limit = []) := by
  have hfl : (db.messages.filter
      (fun m => m.conversation_id = cid)).Pairwise (fun u v => u.id < v.id) :=
    hsort.filter _
  have hsds : sortDescBy (fun m => m.id)
      (db.messages.filter (fun m => m.conversation_id = cid)) =
      (db.messages.filter (fun m => m.conversation_id = cid)).reverse :=
    sortDescBy_of_pairwise_lt _ hfl
  have hmain : load_rows db cid limit =
      (db.messages.filter (fun m => m.conversation_id = cid)).drop
        ((db.messages.filter (fun m => m.conversation_id = cid)).length - limit) := by
    show ((sortDescBy _ _).take limit).reverse = _
    rw [hsds, List.take_reverse, List.reverse_reverse]
  refine ⟨?_, hmain, ?_, ?_⟩
  · rw [hmain]
    exact List.Pairwise.sublist (List.drop_sublist _ _) hfl
  · intro hle
    rw [hmain, Nat.sub_eq_zero_of_le hle, List.drop_zero]
  · intro hnil
    show (load_rows db cid limit).map _ = _
    rw [hmain, hnil]
    simp

theorem C5_conversation_memory_ordering_witness :
    load_messages
        ⟨[⟨0, "c", "user", ['h']⟩, ⟨1, "c", "assistant", ['y']⟩], 2, [], 0, []⟩
        "c" 1 = [("assistant", ['y'])]
    ∧ (load_rows
        ⟨[⟨0, "c", "user", ['h']⟩, ⟨1, "c", "assistant", ['y']⟩], 2, [], 0, []⟩
        "c" 1).Pairwise (fun u v => u.id < v.id) := by
  refine ⟨?_, (C5_conversation_memory_ordering _ "c" 1 (by decide)).1⟩
  have h := (C5_conversation_memory_ordering
    ⟨[⟨0, "c", "user", ['h']⟩, ⟨1, "c", "assistant", ['y']⟩], 2, [], 0, []⟩
    "c" 1 (by decide)).2.1
  show (load_rows _ _ _).map _ = _
  rw [h]
  decide

/-- C2: Retrieval top-K contract: `search_chunks` returns at most `top_k`
fragment contents; it scores every stored chunk (the scored list has one
entry per chunk and the sorted list is a permutation of it); scores in the
sorted list are non-increasing; ties keep the underlying scan order (the
sort is stable: filtering the sorted list at any fixed score equals
filtering the scan-order list); and an empty store yields an empty result
rather than an error. -/
theorem C2_topk_contract (query : List ℝ) (chunks : List ChunkRow) (k : Nat) :
    (search_chunks query chunks k).length ≤ k
    ∧ (scoredOf query chunks).length = chunks.length
    ∧ (sortDescBy Prod.fst (scoredOf query chunks)).Pairwise
        (fun p q => q.1 ≤ p.1)
    ∧ List.Perm (sortDescBy Prod.fst (scoredOf query chunks))
        (scoredOf query chunks)
    ∧ (∀ v : ℝ, (sortDescBy Prod.fst (scoredOf query chunks)).filter
        (fun p => p.1 = v) = (scoredOf query chunks).filter (fun p => p.1 = v))
    ∧ (chunks = [] → search_chunks query chunks k = []) := by
  refine ⟨?_, ?_, ?_, ?_, ?_, ?_⟩
  · show (((sortDescBy _ _).take k).map _).length ≤ k
    rw [List.length_map, List.length_take]
    exact Nat.min_le_left k _
  · exact List.length_map _ _
  · exact sortedDesc_sortDescBy _ _
  · exact sortDescBy_perm _ _
  · intro v
    exact filter_sortDescBy _ _ v
  · rintro rfl
    simp [search_chunks, scoredOf, sortDescBy]

theorem C2_topk_contract_witness :
    search_chunks [] ([] : List ChunkRow) 4 = [] :=
  (C2_topk_contract [] [] 4).2.2.2.2.2 rfl

/-! ## The chat pipeline -/

theorem chat_embed_error {embed : List Char → Except BackendError (List ℝ)}
    {generate : List Msg → Except BackendError (Option (List Char))}
    {db : DBState} {cid : String} {message : List Char} {e : BackendError}
    (he : embed message = .error e) :
    chat embed generate db cid message = (.error e, db) := by
  simp only [chat, he]

theorem chat_generate_error {embed : List Char → Except BackendError (List ℝ)}
    {generate : List Msg → Except BackendError (Option (List Char))}
    {db : DBState} {cid : String} {message : List Char} {emb : List ℝ}
    {e : BackendError} (hemb : embed message = .ok emb)
    (hgen : generate (assembledFor db cid message emb) = .error e) :
    chat embed generate db cid message = (.error e, db) := by
  simp only [chat, hemb, hgen]

theorem chat_ok {embed : List Char → Except BackendError (List ℝ)}
    {generate : List Msg → Except BackendError (Option (List Char))}
    {db : DBState} {cid : String} {message : List Char} {emb : List ℝ}
    {content : Option (List Char)} (hemb : embed message = .ok emb)
    (hgen : generate (assembledFor db cid message emb) = .ok content) :
    chat embed generate db cid message =
      (.ok (content.getD []),
       save_message (save_message db cid "user" message) cid "assistant"
         (content.getD [])) := by
  simp only [chat, hemb, hgen]

/-- C3: Chat failure atomicity: if the embedding call fails, or the
generation call on the assembled prompt fails, the request aborts with that
failure's classification and the store state is returned unchanged — no
user or assistant turn is persisted. -/
theorem C3_chat_failure_atomicity
    (embed : List Char → Except BackendError (List ℝ))
    (generate : List Msg → Except BackendError (Option (List Char)))
    (db : DBState) (cid : String) (message : List Char) :
    (∀ e : BackendError, embed message = .error e →
      chat embed generate db cid message = (.error e, db))
    ∧ (∀ (e : BackendError) (emb : List ℝ), embed message = .ok emb →
        generate (assembledFor db cid message emb) = .error e →
        chat embed generate db cid message = (.error e, db)) :=
  ⟨fun _ he => chat_embed_error he,
   fun _ _ hemb hgen => chat_generate_error hemb hgen⟩

theorem C3_chat_failure_atomicity_witness :
    chat (fun _ => .error .unauthorized) (fun _ => .ok (some ['h'])) emptyDB
        "c1" ['h'] = (.error .unauthorized, emptyDB)
    ∧ chat (fun _ => .ok []) (fun _ => .error .rateLimited) emptyDB
        "c1" ['h'] = (.error .rateLimited, emptyDB) :=
  ⟨(C3_chat_failure_atomicity _ _ emptyDB "c1" ['h']).1 .unauthorized rfl,
   (C3_chat_failure_atomicity _ _ emptyDB "c1" ['h']).2 .rateLimited [] rfl rfl⟩

/-- C4: Prompt assembly order: the assembled sequence is exactly the
optional system message (present iff retrieval returned at least one
fragment, containing the fragments joined by the fixed separator), followed
by the prior turns in order, followed by the new user message last; on a
fresh conversation with an empty document store the sequence sent to the
generation backend is a single user message with no system message. -/
theorem C4_prompt_assembly (history : List (String × List Char))
    (message : List Char) (retrieved : List (List Char)) (db : DBState)
    (cid : String) (emb : List ℝ) :
    assemble history message retrieved =
      (if retrieved = [] then []
       else [Msg.mk "system" (contextBlock retrieved)])
        ++ history.map (fun rc => Msg.mk rc.1 rc.2) ++ [Msg.mk "user" message]
    ∧ (assemble history message retrieved).getLast? = some (Msg.mk "user" message)
    ∧ ((∀ rc ∈ history, rc.1 ≠ "system") →
        ((∃ m ∈ assemble history message retrieved, m.role = "system") ↔
          retrieved ≠ []))
    ∧ (db.messages = [] → db.chunks = [] →
        assembledFor db cid message emb = [Msg.mk "user" message]) := by
  refine ⟨?_, ?_, ?_, ?_⟩
  · cases retrieved with
    | nil => simp [assemble]
    | cons r rs => simp [assemble]
  · cases retrieved with
    | nil => exact List.getLast?_concat _
    | cons r rs =>
      show (Msg.mk "system" _ :: (_ ++ [Msg.mk "user" message])).getLast? = _
      rw [← List.cons_append]
      exact List.getLast?_concat _
  · intro hhist
    constructor
    · rintro ⟨m, hm, hrole⟩
      cases retrieved with
      | nil =>
        simp only [assemble, List.mem_append, List.mem_map, List.mem_singleton] at hm
        rcases hm with ⟨rc, hrc, rfl⟩ | rfl
        · exact absurd hrole (hhist rc hrc)
        · have hus : ("user" : String) ≠ "system" := by decide
          exact absurd hrole hus
      | cons r rs => simp
    · intro hne
      cases retrieved with
      | nil => exact absurd rfl hne
      | cons r rs =>
        exact ⟨Msg.mk "system" (contextBlock (r :: rs)),
          List.mem_cons_self _ _, rfl⟩
  · intro hmsgs hchunks
    have hload : load_messages db cid 20 = [] := by
      simp [load_messages, load_rows, hmsgs, sortDescBy]
    have hsearch : search_chunks emb db.chunks 4 = [] := by
      rw [hchunks]
      simp [search_chunks, scoredOf, sortDescBy]
    unfold assembledFor
    rw [hload, hsearch]
    rfl

theorem C4_prompt_assembly_witness :
    assemble [("user", ['a'])] ['q'] [['f']] =
      [Msg.mk "system" (contextBlock [['f']]), Msg.mk "user" ['a'],
       Msg.mk "user" ['q']]
    ∧ assembledFor emptyDB "c1" ['q'] [] = [Msg.mk "user" ['q']] := by
  constructor
  · have h := (C4_prompt_assembly [("user", ['a'])] ['q'] [['f']] emptyDB "c1" []).1
    simpa using h
  · exact (C4_prompt_assembly [] ['q'] [] emptyDB "c1" []).2.2.2 rfl rfl

/-- C6: Turn persistence ordering: a successful chat request appends exactly
two new turns for the conversation — first the user turn carrying the
request message, then the assistant turn carrying the generated text, with
consecutive identifiers — and returns the generated text. -/
theorem C6_turn_persistence
    (embed : List Char → Except BackendError (List ℝ))
    (generate : List Msg → Except BackendError (Option (List Char)))
    (db : DBState) (cid : String) (message : List Char) (emb : List ℝ)
    (content : Option (List Char)) (hemb : embed message = .ok emb)
    (hgen : generate (assembledFor db cid message emb) = .ok content) :
    (chat embed generate db cid message).2.messages =
      db.messages ++ [⟨db.next_message_id, cid, "user", message⟩,
        ⟨db.next_message_id + 1, cid, "assistant", content.getD []⟩]
    ∧ (chat embed generate db cid message).1 = .ok (content.getD []) := by
  rw [chat_ok hemb hgen]
  refine ⟨?_, rfl⟩
  simp [save_message]

theorem C6_turn_persistence_witness :
    (chat (fun _ => .ok []) (fun _ => .ok (some ['o', 'k'])) emptyDB "c1"
        ['h']).2.messages =
      [⟨0, "c1", "user", ['h']⟩, ⟨1, "c1", "assistant", ['o', 'k']⟩] := by
  have h := (C6_turn_persistence (fun _ => .ok [])
    (fun _ => .ok (some ['o', 'k'])) emptyDB "c1" ['h'] []
    (some ['o', 'k']) rfl rfl).1
  simpa [emptyDB] using h

/-- C9 counterexample: with a generation backend that returns no content,
the orchestrator defaults the text to the empty string and persists an
assistant turn whose content is empty — the non-empty-content invariant
fails for that persisted turn. -/
theorem C9_nonempty_turn_counterexample :
    ¬ (∀ m ∈ (chat (fun _ => .ok []) (fun _ => .ok none) emptyDB "c1"
        ['h']).2.messages, m.content ≠ []) := by
  intro h
  have he : (chat (fun _ => .ok []) (fun _ => .ok none) emptyDB "c1"
      ['h']).2.messages =
      [⟨0, "c1", "user", ['h']⟩, ⟨1, "c1", "assistant", []⟩] := rfl
  have hmem : (⟨1, "c1", "assistant", []⟩ : Message) ∈
      (chat (fun _ => .ok []) (fun _ => .ok none) emptyDB "c1"
        ['h']).2.messages := by
    rw [he]
    exact List.mem_cons_of_mem _ (List.mem_cons_self _ _)
  exact h _ hmem rfl

/-- C9 amended: every user turn persisted by a successful chat request has
non-empty content (the request message is non-empty by validation); the
assistant turn's content is the generated text defaulted to the empty
string, so it is empty exactly when the backend returns no usable content —
the non-empty invariant is not guaranteed for assistant turns. -/
theorem C9_nonempty_turn_amended
    (embed : List Char → Except BackendError (List ℝ))
    (generate : List Msg → Except BackendError (Option (List Char)))
    (db : DBState) (cid : String) (message : List Char) (emb : List ℝ)
    (content : Option (List Char)) (hemb : embed message = .ok emb)
    (hgen : generate (assembledFor db cid message emb) = .ok content)
    (hmsg : message ≠ []) :
    (chat embed generate db cid message).2.messages =
      db.messages ++ [⟨db.next_message_id, cid, "user", message⟩,
        ⟨db.next_message_id + 1, cid, "assistant", content.getD []⟩]
    ∧ (∀ m ∈ (chat embed generate db cid message).2.messages,
        m ∉ db.messages → m.role = "user" → m.content ≠ []) := by
  have hmain : (chat embed generate db cid message).2.messages =
      db.messages ++ [⟨db.next_message_id, cid, "user", message⟩,
        ⟨db.next_message_id + 1, cid, "assistant", content.getD []⟩] := by
    rw [chat_ok hemb hgen]
    simp [save_message]
  refine ⟨hmain, ?_⟩
  intro m hm hnew hrole
  rw [hmain, List.mem_append] at hm
  rcases hm with hm | hm
  · exact absurd hm hnew
  · rcases List.mem_cons.1 hm with rfl | hm
    · exact hmsg
    · rcases List.mem_cons.1 hm with rfl | hm
      · have hau : ("assistant" : String) ≠ "user" := by decide
        exact absurd hrole hau
      · exact absurd hm (List.not_mem_nil m)

theorem C9_nonempty_turn_amended_witness :
    (chat (fun _ => .ok []) (fun _ => .ok (some ['o'])) emptyDB "c1"
        ['h']).2.messages =
      [⟨0, "c1", "user", ['h']⟩, ⟨1, "c1", "assistant", ['o']⟩] := by
  have h := (C9_nonempty_turn_amended (fun _ => .ok [])
    (fun _ => .ok (some ['o'])) emptyDB "c1" ['h'] [] (some ['o']) rfl rfl
    (by simp)).1
  simpa [emptyDB] using h

/-! ## The ingest pipeline -/

theorem ingestChunks_append
    (embed : List Char → Except BackendError (List ℝ)) (did : Nat)
    (f : List Char → List ℝ) (p rest : List (List Char)) :
    ∀ db : DBState, (∀ ch ∈ p, embed ch = .ok (f ch)) →
      ingestChunks embed did db (p ++ rest) =
        ingestChunks embed did
          (p.foldl (fun d ch => add_chunk d did ch (f ch)) db) rest := by
  induction p with
  | nil => intro db _; rfl
  | cons c p ih =>
    intro db hp
    have hc : embed c = .ok (f c) := hp c (List.mem_cons_self c p)
    show ingestChunks embed did db (c :: (p ++ rest)) = _
    simp only [ingestChunks, hc]
    exact ih _ (fun ch hch => hp ch (List.mem_cons_of_mem c hch))

theorem foldl_add_chunk_documents (did : Nat) (f : List Char → List ℝ)
    (p : List (List Char)) : ∀ db : DBState,
    (p.foldl (fun d ch => add_chunk d did ch (f ch)) db).documents =
      db.documents := by
  induction p with
  | nil => intro db; rfl
  | cons c p ih => intro db; exact ih _

theorem foldl_add_chunk_chunks (did : Nat) (f : List Char → List ℝ)
    (p : List (List Char)) : ∀ db : DBState,
    (p.foldl (fun d ch => add_chunk d did ch (f ch)) db).chunks =
      db.chunks ++ p.map (fun ch => ⟨did, ch, f ch⟩) := by
  induction p with
  | nil => intro db; simp
  | cons c p ih =>
    intro db
    show (p.foldl _ (add_chunk db did c (f c))).chunks = _
    rw [ih]
    simp [add_chunk]

/-- C10: Ingest non-atomicity: `ingest` persists the document record before
any chunk is embedded, and persists each chunk right after its embedding
call; if the embedding backend fails on some chunk, the request aborts with
that failure while the document record and all previously embedded chunks
remain durably stored (no rollback), and the stored-chunk count seen by
`get_counts` reflects them. -/
theorem C10_ingest_partial_persistence
    (embed : List Char → Except BackendError (List ℝ)) (db : DBState)
    (name : String) (text : List Char) (f : List Char → List ℝ)
    (e : BackendError) (p rest : List (List Char)) (c : List Char)
    (hsplit : split (pyStrip text) chunk_size = p ++ c :: rest)
    (hp : ∀ ch ∈ p, embed ch = .ok (f ch)) (hc : embed c = .error e) :
    ingest embed db name text =
      (.error e,
       p.foldl (fun d ch => add_chunk d (create_document db name).1 ch (f ch))
         (create_document db name).2)
    ∧ (ingest embed db name text).2.documents =
        db.documents ++ [⟨db.next_document_id, name⟩]
    ∧ (ingest embed db name text).2.chunks =
        db.chunks ++ p.map (fun ch => ⟨db.next_document_id, ch, f ch⟩)
    ∧ (get_counts (ingest embed db name text).2).2.2 =
        db.chunks.length + p.length := by
  have hmain : ingest embed db name text =
      (.error e,
       p.foldl (fun d ch => add_chunk d (create_document db name).1 ch (f ch))
         (create_document db name).2) := by
    simp only [ingest]
    rw [hsplit, ingestChunks_append embed _ f p (c :: rest) _ hp]
    simp only [ingestChunks, hc]
  refine ⟨hmain, ?_, ?_, ?_⟩
  · rw [hmain]
    simp [foldl_add_chunk_documents, create_document]
  · rw [hmain]
    simp [foldl_add_chunk_chunks, create_document]
  · rw [hmain]
    simp [get_counts, foldl_add_chunk_chunks, create_document]

theorem C10_ingest_partial_persistence_witness :
    (ingest (fun _ => .error .embeddingUnavailable) emptyDB "doc1"
        ['a']).2.documents = [⟨0, "doc1"⟩]
    ∧ (get_counts (ingest (fun _ => .error .embeddingUnavailable) emptyDB
        "doc1" ['a']).2).2.2 = 0 := by
  have h := C10_ingest_partial_persistence
    (fun _ => .error .embeddingUnavailable) emptyDB "doc1" ['a']
    (fun _ => []) .embeddingUnavailable [] [] ['a'] (by decide)
    (by intro ch hch; exact absurd hch (List.not_mem_nil ch)) rfl
  exact ⟨by simpa [emptyDB] using h.2.1, by simpa [emptyDB] using h.2.2.2⟩

/-! ## Properties of the similarity primitive -/

theorem sum_map_eq_finSum (p : List (ℝ × ℝ)) (f : ℝ × ℝ → ℝ) :
    (p.map f).sum = ∑ i : Fin p.length, f (p.get i) := by
  rw [← List.ofFn_get_eq_map, Fin.sum_ofFn]

theorem abs_sum_mul_le {n : Nat} (f g : Fin n → ℝ) :
    |∑ i, f i * g i| ≤
      Real.sqrt (∑ i, f i * f i) * Real.sqrt (∑ i, g i * g i) := by
  have hf : (∑ i, f i * f i) = ∑ i, f i ^ 2 := by
    apply Finset.sum_congr rfl
    intro i _
    ring
  have hg : (∑ i, g i * g i) = ∑ i, g i ^ 2 := by
    apply Finset.sum_congr rfl
    intro i _
    ring
  rw [hf, hg, abs_le]
  refine ⟨?_, Real.sum_mul_le_sqrt_mul_sqrt Finset.univ f g⟩
  have h2 := Real.sum_mul_le_sqrt_mul_sqrt Finset.univ (fun i => -f i) g
  have hnf : (∑ i, (-f i) ^ 2) = ∑ i, f i ^ 2 := by
    apply Finset.sum_congr rfl
    intro i _
    ring
  have hsum : (∑ i, -f i * g i) = -∑ i, f i * g i := by
    rw [← Finset.sum_neg_distrib]
    apply Finset.sum_congr rfl
    intro i _
    ring
  rw [hsum, hnf] at h2
  linarith

theorem list_abs_dot_le (p : List (ℝ × ℝ)) :
    |(p.map (fun q => q.1 * q.2)).sum| ≤
      Real.sqrt ((p.map (fun q => q.1 * q.1)).sum) *
        Real.sqrt ((p.map (fun q => q.2 * q.2)).sum) := by
  rw [sum_map_eq_finSum p (fun q => q.1 * q.2),
    sum_map_eq_finSum p (fun q => q.1 * q.1),
    sum_map_eq_finSum p (fun q => q.2 * q.2)]
  exact abs_sum_mul_le (fun i => (p.get i).1) (fun i => (p.get i).2)

theorem cosine_similarity_bounds (a b : List ℝ) :
    -1 ≤ _cosine_similarity a b ∧ _cosine_similarity a b ≤ 1 := by
  simp only [_cosine_similarity]
  split_ifs with h
  · norm_num
  · have habs := list_abs_dot_le (a.zip b)
    have hd0 : (0 : ℝ) ≤
        Real.sqrt ((((a.zip b)).map (fun p => p.1 * p.1)).sum) *
          Real.sqrt ((((a.zip b)).map (fun p => p.2 * p.2)).sum) :=
      mul_nonneg (Real.sqrt_nonneg _) (Real.sqrt_nonneg _)
    have hpos : (0 : ℝ) <
        Real.sqrt ((((a.zip b)).map (fun p => p.1 * p.1)).sum) *
          Real.sqrt ((((a.zip b)).map (fun p => p.2 * p.2)).sum) :=
      lt_of_le_of_ne hd0 (Ne.symm h)
    have habs1 : |(((a.zip b)).map (fun p => p.1 * p.2)).sum /
        (Real.sqrt ((((a.zip b)).map (fun p => p.1 * p.1)).sum) *
          Real.sqrt ((((a.zip b)).map (fun p => p.2 * p.2)).sum))| ≤ 1 := by
      rw [abs_div, abs_of_pos hpos]
      exact (div_le_one hpos).2 habs
    exact abs_le.1 habs1

theorem zip_map_fst_sq (a b : List ℝ) (h : a.length ≤ b.length) :
    (a.zip b).map (fun p => p.1 * p.1) = a.map (fun x => x * x) := by
  rw [show (fun (p : ℝ × ℝ) => p.1 * p.1) = (fun x => x * x) ∘ Prod.fst from
    rfl, ← List.map_map, List.map_fst_zip a b h]

theorem zip_map_snd_sq (a b : List ℝ) (h : b.length ≤ a.length) :
    (a.zip b).map (fun p => p.2 * p.2) = b.map (fun x => x * x) := by
  rw [show (fun (p : ℝ × ℝ) => p.2 * p.2) = (fun x => x * x) ∘ Prod.snd from
    rfl, ← List.map_map, List.map_snd_zip a b h]

theorem cosine_similarity_formula (a b : List ℝ) (h : a.length = b.length) :
    _cosine_similarity a b =
      dotList a b / (Real.sqrt (normSqList a) * Real.sqrt (normSqList b)) := by
  simp only [_cosine_similarity, dotList, normSqList]
  rw [← zip_map_fst_sq a b (le_of_eq h), ← zip_map_snd_sq a b (le_of_eq h.symm)]
  split_ifs with hd
  · rw [hd, div_zero]
  · rfl

theorem zip_self_eq (a : List ℝ) : a.zip a = a.map (fun x => (x, x)) := by
  have h := List.zip_map' id id a
  simpa using h

theorem cosine_similarity_self (a : List ℝ) (ha : ∃ x ∈ a, x ≠ 0) :
    _cosine_similarity a a = 1 := by
  have hS : 0 < normSqList a := by
    rcases ha with ⟨x, hx, hx0⟩
    have hmem : x * x ∈ a.map (fun y => y * y) := List.mem_map_of_mem _ hx
    have hle : x * x ≤ (a.map (fun y => y * y)).sum :=
      List.single_le_sum (fun y hy => by
        rcases List.mem_map.1 hy with ⟨z, _, rfl⟩
        exact mul_self_nonneg z) _ hmem
    exact lt_of_lt_of_le (mul_self_pos.2 hx0) hle
  have hmaps : ∀ f : ℝ × ℝ → ℝ, (a.zip a).map f = a.map (fun x => f (x, x)) := by
    intro f
    rw [zip_self_eq, List.map_map]
    rfl
  simp only [_cosine_similarity, hmaps]
  have hsq : Real.sqrt ((a.map (fun x => x * x)).sum) *
      Real.sqrt ((a.map (fun x => x * x)).sum) = (a.map (fun x => x * x)).sum :=
    Real.mul_self_sqrt (le_of_lt hS)
  rw [hsq]
  have hS2 : (a.map (fun x => x * x)).sum ≠ 0 := ne_of_gt hS
  rw [if_neg hS2]
  exact div_self hS2

theorem cosine_similarity_zero_left (a b : List ℝ) (ha : ∀ x ∈ a, x = 0) :
    _cosine_similarity a b = 0 := by
  have hna : (((a.zip b)).map (fun p => p.1 * p.1)).sum = 0 := by
    apply List.sum_eq_zero
    intro y hy
    rcases List.mem_map.1 hy with ⟨p, hp, rfl⟩
    rw [ha p.1 (List.of_mem_zip hp).1, mul_zero]
  simp [_cosine_similarity, hna]

theorem cosine_similarity_zero_right (a b : List ℝ) (hb : ∀ x ∈ b, x = 0) :
    _cosine_similarity a b = 0 := by
  have hnb : (((a.zip b)).map (fun p => p.2 * p.2)).sum = 0 := by
    apply List.sum_eq_zero
    intro y hy
    rcases List.mem_map.1 hy with ⟨p, hp, rfl⟩
    rw [hb p.2 (List.of_mem_zip hp).2, mul_zero]
  simp [_cosine_similarity, hnb]

/-- C7: Similarity contract: for equal-length real vectors, the similarity
equals dot(a,b)/(‖a‖·‖b‖) (with the zero-denominator case yielding 0 as a
value, not an error), lies in [-1, 1], equals 1 on any nonzero vector paired
with itself, and is 0 whenever either vector has zero magnitude. -/
theorem C7_similarity_contract (a b : List ℝ) (h : a.length = b.length) :
    _cosine_similarity a b =
      dotList a b / (Real.sqrt (normSqList a) * Real.sqrt (normSqList b))
    ∧ -1 ≤ _cosine_similarity a b ∧ _cosine_similarity a b ≤ 1
    ∧ ((∃ x ∈ a, x ≠ 0) → _cosine_similarity a a = 1)
    ∧ ((∀ x ∈ a, x = 0) → _cosine_similarity a b = 0)
    ∧ ((∀ x ∈ b, x = 0) → _cosine_similarity a b = 0) :=
  ⟨cosine_similarity_formula a b h, (cosine_similarity_bounds a b).1,
   (cosine_similarity_bounds a b).2, cosine_similarity_self a,
   cosine_similarity_zero_left a b, cosine_similarity_zero_right a b⟩

theorem C7_similarity_contract_witness :
    _cosine_similarity [1, 0] [1, 0] = 1
    ∧ -1 ≤ _cosine_similarity ([1, 0] : List ℝ) [0, 1] := by
  refine ⟨(C7_similarity_contract [1, 0] [1, 0] rfl).2.2.2.1 ?_,
    (C7_similarity_contract [1, 0] [0, 1] rfl).2.1⟩
  exact ⟨1, List.mem_cons_self _ _, one_ne_zero⟩

theorem zip_take_take : ∀ (a b : List ℝ) (n : Nat),
    (a.take n).zip (b.take n) = (a.zip b).take n := by
  intro a
  induction a with
  | nil => intro b n; simp
  | cons x xs ih =>
    intro b n
    cases b with
    | nil => simp
    | cons y ys =>
      cases n with
      | zero => simp
      | succ n => simp [ih ys n]

/-- C8 counterexample: on vectors of unequal length `_cosine_similarity`
does not fail with an InvalidInput condition — it returns an ordinary value
(computed over the zipped common prefix); here `[1, 0]` against `[1]`
yields 1. -/
theorem C8_length_check_counterexample :
    ([1, 0] : List ℝ).length ≠ ([1] : List ℝ).length
    ∧ _cosine_similarity [1, 0] [1] = 1 := by
  constructor
  · decide
  · have hz : ([1, 0] : List ℝ).zip [1] = [((1 : ℝ), (1 : ℝ))] := rfl
    simp only [_cosine_similarity, hz, List.map_cons, List.map_nil,
      List.sum_cons, List.sum_nil, one_mul, add_zero, Real.sqrt_one, mul_one]
    norm_num

/-- C8 amended: for vectors of unequal length the similarity does not fail:
the code silently truncates both vectors to their common length (zip
semantics) and returns the similarity of the truncated vectors. -/
theorem C8_length_check_amended (a b : List ℝ) :
    _cosine_similarity a b =
      _cosine_similarity (a.take (min a.length b.length))
        (b.take (min a.length b.length)) := by
  have hz : (a.take (min a.length b.length)).zip
      (b.take (min a.length b.length)) = a.zip b := by
    rw [zip_take_take]
    exact List.take_of_length_le (le_of_eq (List.length_zip a b))
  simp only [_cosine_similarity, hz]

end AppliedAI
